import Mathlib

/-!
Verification development for the stock data provider
(src/data_tools/stock_data_provider.py of the stock-ai-analysisi repository).

The Python code is shallowly embedded as executable Lean definitions:

* Python strings are `List Char` (`PyStr`); the string operations the code
  uses (`strip`, `lower`, `upper`, `split('.')`, `startswith`, the `in`
  substring test) are implemented as structural recursions so that concrete
  inputs evaluate inside the kernel.  `strip` is modelled on the ASCII
  whitespace characters.
* Calendar dates are `Nat` (the code normalizes all date strings with
  `pd.to_datetime(...).date()` before any comparison, so only the linear
  order on dates matters).
* A pandas `DataFrame` holding history rows is a `List Row`; a row keeps its
  primary date column (`日期`) and an opaque payload standing for the other
  provider columns.
* The on-disk cache of one entity is a `CacheState`: the content of
  `history_data.csv` (`TableFile`) and of `history_meta.json` (`MetaFile`),
  with explicit constructors for the failure shapes the code distinguishes
  (missing file, zero-size file, unparsable file, parsable file missing the
  date column).
* The remote call `ak.stock_zh_a_hist` is an oracle argument: the outcome of
  the one fetch a call may perform is passed in as a `Fetch` value.  Fetched
  frames are modelled as carrying the primary date column; when the remote
  frame lacks it the code only logs a warning and later fails at the slice
  step, a branch no specified property depends on.
* `pandas.sort_values` is modelled by insertion sort.  Where the code sorts,
  the dates involved are pairwise distinct after deduplication, so any
  correct sort produces the same list; for externally produced duplicate
  dates the pandas order is unspecified (unstable quicksort) and insertion
  sort is one admissible refinement.
* `drop_duplicates(subset=['日期'], keep='last')` keeps, in original order,
  each row that has no later row with the same date.
-/

namespace StockProvider

/-- Python strings, as character lists. -/
abbrev PyStr := List Char

/-- ASCII lower-casing of one character (`str.lower` per character). -/
def charLower (c : Char) : Char :=
  if 'A' ≤ c ∧ c ≤ 'Z' then Char.ofNat (c.toNat + 32) else c

/-- ASCII upper-casing of one character (`str.upper` per character). -/
def charUpper (c : Char) : Char :=
  if 'a' ≤ c ∧ c ≤ 'z' then Char.ofNat (c.toNat - 32) else c

/-- Model of `str.lower`. -/
def pyLower (s : PyStr) : PyStr := s.map charLower

/-- Model of `str.upper`. -/
def pyUpper (s : PyStr) : PyStr := s.map charUpper

/-- ASCII whitespace, the characters `str.strip` removes. -/
def pyIsSpace (c : Char) : Bool :=
  c == ' ' || c == '\t' || c == '\n' || c == '\r'

/-- Model of `str.strip()`: drop whitespace from both ends. -/
def pyStrip (s : PyStr) : PyStr :=
  ((s.dropWhile pyIsSpace).reverse.dropWhile pyIsSpace).reverse

/-- Model of `str.split('.')`: split at every dot; `''.split('.') == ['']`. -/
def splitAtDot : PyStr → List PyStr
  | [] => [[]]
  | c :: rest =>
    if c == '.' then [] :: splitAtDot rest
    else
      match splitAtDot rest with
      | [] => [[c]]
      | h :: t => (c :: h) :: t

/-- Model of `str.startswith(c)` for a one-character argument. -/
def pyStartsWith (s : PyStr) (c : Char) : Bool :=
  match s with
  | [] => false
  | a :: _ => a == c

/-- Does `needle` sit at the front of `hay`? -/
def frontMatch : PyStr → PyStr → Bool
  | [], _ => true
  | _ :: _, [] => false
  | n :: ns, h :: hs => n == h && frontMatch ns hs

/-- Python's substring test `needle in hay`. -/
def pyContains (hay needle : PyStr) : Bool :=
  match hay with
  | [] => frontMatch needle []
  | c :: t => frontMatch needle (c :: t) || pyContains t needle

/-- Exchange tag inferred from the leading digit when no suffix is given
(source lines 34-43): `6` to SH, `0`/`3` to SZ, `4`/`8` to BJ, default SZ. -/
def inferExchange (code : PyStr) : PyStr :=
  if pyStartsWith code '6' then ['S', 'H']
  else if pyStartsWith code '0' || pyStartsWith code '3' then ['S', 'Z']
  else if pyStartsWith code '4' || pyStartsWith code '8' then ['B', 'J']
  else ['S', 'Z']

/-- Model of `_parse_symbol` (source lines 17-45).  The input is stripped and
lower-cased; `'.' in s` followed by `code, exchange = s.split('.')` succeeds
exactly when the split yields one fragment (no dot, exchange inferred) or two
fragments (one dot, explicit suffix); with more than one dot the unpacking
raises `ValueError`, modelled as `none`. -/
def parse_symbol (symbolInput : PyStr) : Option (PyStr × PyStr) :=
  let s := pyLower (pyStrip symbolInput)
  match splitAtDot s with
  | [code] => some (code, inferExchange code ++ code)
  | [code, exch] => some (code, pyUpper exch ++ code)
  | _ => none

/-- One row of the history table: the primary date column `日期` plus an
opaque payload standing for the remaining provider columns. -/
structure Row where
  date : Nat
  payload : Nat
deriving DecidableEq

/-- Content of the persisted table file `history_data.csv`. -/
inductive TableFile where
  /-- the file does not exist -/
  | absent
  /-- the file exists with size 0 -/
  | emptyFile
  /-- the file exists, is nonempty, and `pd.read_csv` raises -/
  | unreadable
  /-- the file parses but the `日期` column is missing -/
  | noDateCol (junk : Nat)
  /-- the file parses and has the `日期` column -/
  | table (rows : List Row)
deriving DecidableEq

/-- Content of the persisted metadata file `history_meta.json`.  Reading the
two bounds happens in order inside one `try`, so either bound parse may fail,
but `covered_end` can never be set without `covered_start`. -/
inductive MetaFile where
  /-- the file does not exist -/
  | absent
  /-- `json.load` fails, or already `covered_start` does not parse -/
  | corrupt
  /-- `covered_start` parses but `covered_end` does not -/
  | startOnly (cs : Nat)
  /-- both bounds parse -/
  | meta (cs ce : Nat)
deriving DecidableEq

/-- The durable cache state of one entity's history dataset. -/
structure CacheState where
  file : TableFile
  meta : MetaFile
deriving DecidableEq

/-- Coverage loading (source lines 139-150): the metadata is consulted only
when both files exist and the table file is nonempty; any parse failure
leaves the corresponding bound unset. -/
def loadCoverage (s : CacheState) : Option Nat × Option Nat :=
  match s.file with
  | TableFile.absent => (none, none)
  | TableFile.emptyFile => (none, none)
  | _ =>
    match s.meta with
    | MetaFile.absent => (none, none)
    | MetaFile.corrupt => (none, none)
    | MetaFile.startOnly cs => (some cs, none)
    | MetaFile.meta cs ce => (some cs, some ce)

/-- Loading the cached frame for merging (source lines 169-184): absent,
empty, unreadable and date-column-less files all yield `None`. -/
def loadCached : TableFile → Option (List Row)
  | TableFile.table rows => some rows
  | _ => none

/-- The ascending order on rows used by every `sort_values('日期')`. -/
def dateLe (a b : Row) : Prop := a.date ≤ b.date

instance : DecidableRel dateLe := fun a b => Nat.decLe a.date b.date

instance : IsTotal Row dateLe := ⟨fun a b => Nat.le_total a.date b.date⟩

instance : IsTrans Row dateLe := ⟨fun _ _ _ hab hbc => Nat.le_trans hab hbc⟩

/-- Model of `sort_values('日期')`, ascending. -/
def sortByDate (l : List Row) : List Row := List.insertionSort dateLe l

/-- The boolean mask `(df['日期'] >= start) & (df['日期'] <= end)` followed by
`.loc`: keep, in order, the rows whose date lies in the closed interval. -/
def sliceRange (rows : List Row) (s e : Nat) : List Row :=
  rows.filter (fun r => decide (s ≤ r.date) && decide (r.date ≤ e))

/-- Model of `drop_duplicates(subset=['日期'], keep='last')`: a row is kept exactly
when no later row carries the same date, in original order. -/
def dedupKeepLast : List Row → List Row
  | [] => []
  | r :: rest =>
    if rest.any (fun x => x.date == r.date) then dedupKeepLast rest
    else r :: dedupKeepLast rest

/-- The merge step (source lines 204-210): concatenate cache then fetch,
deduplicate by date keeping the last occurrence, sort ascending. -/
def mergeRows (cached newRows : List Row) : List Row :=
  sortByDate (dedupKeepLast (cached ++ newRows))

/-- Outcome of the one `ak.stock_zh_a_hist` call an invocation may make,
supplied as an oracle argument. -/
inductive Fetch where
  | ok (rows : List Row)
  | raised (msg : PyStr)
deriving DecidableEq

/-- What `get_stock_history` does from the caller's point of view: return a
frame, or re-raise the remote error (source line 243 re-raises unmodified). -/
inductive HistResult where
  | ok (rows : List Row)
  | fetchError (msg : PyStr)
deriving DecidableEq

/-- Result, post-state, and whether the remote fetch was invoked. -/
structure HistOutcome where
  result : HistResult
  state : CacheState
  fetchCalled : Bool
deriving DecidableEq

/-- The full-hit test (source lines 152-155): both bounds were loaded and
`covered_start <= req_start and covered_end >= req_end`. -/
def fullHit (cov : Option Nat × Option Nat) (reqStart reqEnd : Nat) : Bool :=
  match cov with
  | (some cs, some ce) => decide (cs ≤ reqStart) && decide (reqEnd ≤ ce)
  | _ => false

/-- Miss or partial hit (source lines 168-239): load any usable cached frame,
invoke the fetch, merge, persist table then metadata, slice.  A raised fetch
is re-raised before any write.  The new bounds take `min`/`max` with each old
bound independently (lines 221-227). -/
def fetchAndMerge (s : CacheState) (cov : Option Nat × Option Nat)
    (reqStart reqEnd : Nat) (fetch : Fetch) : HistOutcome :=
  match fetch with
  | Fetch.raised m =>
    { result := HistResult.fetchError m, state := s, fetchCalled := true }
  | Fetch.ok newRows =>
    let finalRows :=
      match loadCached s.file with
      | some c => mergeRows c newRows
      | none => newRows
    let ncs := match cov.1 with | some cs => min cs reqStart | none => reqStart
    let nce := match cov.2 with | some ce => max ce reqEnd | none => reqEnd
    { result := HistResult.ok (sliceRange finalRows reqStart reqEnd)
      state := { file := TableFile.table finalRows, meta := MetaFile.meta ncs nce }
      fetchCalled := true }

/-- Model of `get_stock_history` (source lines 113-243) for one entity, after date
normalization.  On a full hit with a readable dated table the persisted rows
are sliced, sorted and returned with no remote call; a full hit whose table
read fails or lacks the date column falls through to the fetch path, exactly
as the `try`/`if` at lines 156-164 does. -/
def get_stock_history (s : CacheState) (reqStart reqEnd : Nat)
    (fetch : Fetch) : HistOutcome :=
  let cov := loadCoverage s
  if fullHit cov reqStart reqEnd then
    match s.file with
    | TableFile.table rows =>
      { result := HistResult.ok (sortByDate (sliceRange rows reqStart reqEnd))
        state := s, fetchCalled := false }
    | _ => fetchAndMerge s cov reqStart reqEnd fetch
  else fetchAndMerge s cov reqStart reqEnd fetch

/-- One call of a request sequence: the interval and the fetch oracle. -/
structure Call where
  reqStart : Nat
  reqEnd : Nat
  fetch : Fetch
deriving DecidableEq

/-- State reached after a sequence of `get_stock_history` calls. -/
def runCalls (s : CacheState) : List Call → CacheState
  | [] => s
  | c :: rest => runCalls (get_stock_history s c.reqStart c.reqEnd c.fetch).state rest

/-- A cache state is well formed when full metadata is accompanied by an
existing nonempty table file.  Every state the code itself persists writes
the table before the metadata, so this holds of all code-produced states;
only external deletion or truncation of the table file can break it. -/
def wfState (s : CacheState) : Prop :=
  ∀ cs ce, s.meta = MetaFile.meta cs ce →
    s.file ≠ TableFile.absent ∧ s.file ≠ TableFile.emptyFile

/-- One row of the dividend table: the `除权除息日` column after the
`errors='coerce'` conversion (`none` is a `NaT`, every comparison with which
is false), plus an opaque payload for the other columns. -/
structure DivRow where
  exDate : Option Nat
  payload : Nat
deriving DecidableEq

/-- A dividend frame: whether the `除权除息日` column is present at all, and
the rows. -/
structure DivTable where
  hasDateCol : Bool
  rows : List DivRow
deriving DecidableEq

/-- Content of the persisted file `dividend_info.csv`. -/
inductive DivFile where
  | absent
  | unreadable
  | stored (t : DivTable)
deriving DecidableEq

/-- Outcome of the one `ak.stock_fhps_detail_em` call, as an oracle. -/
inductive DivFetch where
  | ok (t : DivTable)
  | raised (msg : PyStr)
deriving DecidableEq

/-- Caller-visible outcome of `get_stock_dividend_info`. -/
inductive DivResult where
  | ok (t : DivTable)
  | fetchError (msg : PyStr)
deriving DecidableEq

/-- Result, post-state and fetch flag of `get_stock_dividend_info`. -/
structure DivOutcome where
  result : DivResult
  state : DivFile
  fetchCalled : Bool
deriving DecidableEq

/-- The in-memory date filter (source lines 283-312): applied only when some
bound was requested and only when the `除权除息日` column exists; a row whose
date failed to parse (`NaT`) is dropped by either bound's mask; with the
column missing the frame is returned unfiltered (the code merely warns). -/
def divFilter (t : DivTable) (startF endF : Option Nat) : DivTable :=
  if startF.isSome || endF.isSome then
    if t.hasDateCol then
      { hasDateCol := true
        rows := t.rows.filter (fun r =>
          (match startF, r.exDate with
           | some s, some d => decide (s ≤ d)
           | some _, none => false
           | none, _ => true) &&
          (match endF, r.exDate with
           | some e, some d => decide (d ≤ e)
           | some _, none => false
           | none, _ => true)) }
    else t
  else t

/-- Model of `get_stock_dividend_info` (source lines 245-317).  With `force_update`
false and a readable stored table, the stored table is used and no fetch
occurs; otherwise the fetch runs and its result is persisted (overwriting)
before filtering; a raised fetch propagates with no write.  Filtering acts
on the in-memory frame only: the persisted state never reflects it. -/
def get_stock_dividend_info (file : DivFile) (startF endF : Option Nat)
    (forceUpdate : Bool) (fetch : DivFetch) : DivOutcome :=
  let cached : Option DivTable :=
    if forceUpdate then none
    else
      match file with
      | DivFile.stored t => some t
      | _ => none
  match cached with
  | some t =>
    { result := DivResult.ok (divFilter t startF endF)
      state := file, fetchCalled := false }
  | none =>
    match fetch with
    | DivFetch.raised m =>
      { result := DivResult.fetchError m, state := file, fetchCalled := true }
    | DivFetch.ok t =>
      { result := DivResult.ok (divFilter t startF endF)
        state := DivFile.stored t, fetchCalled := true }

/-- Content of the persisted file `institute_recommendations.csv`; rows are
opaque payloads (no column of the recommendation table is ever inspected). -/
inductive RecFile where
  | absent
  | unreadable
  | stored (rows : List Nat)
deriving DecidableEq

/-- Outcome of the one `ak.stock_institute_recommend_detail` call; a raised
exception carries its message string `str(e)`. -/
inductive RecFetch where
  | ok (rows : List Nat)
  | raised (msg : PyStr)
deriving DecidableEq

/-- Caller-visible outcome of `get_stock_institute_recommendations`. -/
inductive RecResult where
  | ok (rows : List Nat)
  | fetchError (msg : PyStr)
deriving DecidableEq

/-- Result, post-state and fetch flag of
`get_stock_institute_recommendations`. -/
structure RecOutcome where
  result : RecResult
  state : RecFile
  fetchCalled : Bool
deriving DecidableEq

/-- The two message fragments the except-handler at source lines 410-416
looks for in `str(e)`. -/
def emptyFrameMsg : PyStr := "Empty DataFrame".data

/-- Second tolerated fragment. -/
def noTablesMsg : PyStr := "No tables found".data

/-- Model of `get_stock_institute_recommendations` (source lines 379-416).  Cache hit
returns the stored rows with no fetch.  On a raised fetch whose message
contains "Empty DataFrame" or "No tables found" an empty frame is returned
and nothing is persisted; any other raised fetch is re-raised; a successful
fetch is persisted and returned. -/
def get_stock_institute_recommendations (file : RecFile) (forceUpdate : Bool)
    (fetch : RecFetch) : RecOutcome :=
  let cached : Option (List Nat) :=
    if forceUpdate then none
    else
      match file with
      | RecFile.stored rows => some rows
      | _ => none
  match cached with
  | some rows =>
    { result := RecResult.ok rows, state := file, fetchCalled := false }
  | none =>
    match fetch with
    | RecFetch.ok rows =>
      { result := RecResult.ok rows, state := RecFile.stored rows
        fetchCalled := true }
    | RecFetch.raised m =>
      if pyContains m emptyFrameMsg || pyContains m noTablesMsg then
        { result := RecResult.ok [], state := file, fetchCalled := true }
      else
        { result := RecResult.fetchError m, state := file, fetchCalled := true }


/-- Claim C9: `_parse_symbol` is a pure, deterministic function of its input
(it is embedded as a Lean function, hence pure and deterministic).  For every
input whose stripped, lower-cased form contains no dot (the split yields one
fragment), the qualified code is the pure code prefixed by SH when the code
starts with '6', SZ when it starts with '0' or '3', BJ when it starts with
'4' or '8', and SZ for any other leading character; for inputs with a single
'.' suffix (the split yields exactly two fragments) the qualified code is the
upper-cased suffix prefixed to the code. -/
theorem parse_symbol_spec (s : PyStr) :
    (∀ code, splitAtDot (pyLower (pyStrip s)) = [code] →
      ∃ ex, parse_symbol s = some (code, ex ++ code) ∧
        (pyStartsWith code '6' = true → ex = ['S', 'H']) ∧
        (pyStartsWith code '0' = true ∨ pyStartsWith code '3' = true → ex = ['S', 'Z']) ∧
        (pyStartsWith code '4' = true ∨ pyStartsWith code '8' = true → ex = ['B', 'J']) ∧
        (pyStartsWith code '6' = false → pyStartsWith code '0' = false →
          pyStartsWith code '3' = false → pyStartsWith code '4' = false →
          pyStartsWith code '8' = false → ex = ['S', 'Z'])) ∧
    (∀ code exch, splitAtDot (pyLower (pyStrip s)) = [code, exch] →
      parse_symbol s = some (code, pyUpper exch ++ code)) := by
  constructor
  · intro code h
    refine ⟨inferExchange code, ?_, ?_, ?_, ?_, ?_⟩
    · simp only [parse_symbol, h]
    · intro h6
      simp [inferExchange, h6]
    · rintro (h0 | h3)
      · cases code with
        | nil => simp [pyStartsWith] at h0
        | cons a t =>
          simp only [pyStartsWith, beq_iff_eq] at h0
          subst h0
          simp [inferExchange, pyStartsWith]
      · cases code with
        | nil => simp [pyStartsWith] at h3
        | cons a t =>
          simp only [pyStartsWith, beq_iff_eq] at h3
          subst h3
          simp [inferExchange, pyStartsWith]
    · rintro (h4 | h8)
      · cases code with
        | nil => simp [pyStartsWith] at h4
        | cons a t =>
          simp only [pyStartsWith, beq_iff_eq] at h4
          subst h4
          simp [inferExchange, pyStartsWith]
      · cases code with
        | nil => simp [pyStartsWith] at h8
        | cons a t =>
          simp only [pyStartsWith, beq_iff_eq] at h8
          subst h8
          simp [inferExchange, pyStartsWith]
    · intro h6 h0 h3 h4 h8
      simp [inferExchange, h6, h0, h3, h4, h8]
  · intro code exch h
    simp only [parse_symbol, h]

/-- Witness for C9: a bare code inferring SH, and an explicit-suffix code. -/
theorem parse_symbol_spec_witness :
    splitAtDot (pyLower (pyStrip ("600519".data))) = ["600519".data] ∧
    parse_symbol ("600519".data) = some ("600519".data, "SH600519".data) ∧
    splitAtDot (pyLower (pyStrip (" 000858.SZ ".data))) = ["000858".data, "sz".data] ∧
    parse_symbol (" 000858.SZ ".data) = some ("000858".data, "SZ000858".data) := by
  refine ⟨by decide, ?_, by decide, ?_⟩
  · obtain ⟨ex, hex, h6, -, -, -⟩ :=
      (parse_symbol_spec ("600519".data)).1 ("600519".data) (by decide)
    have hsh : ex = ['S', 'H'] := h6 (by decide)
    rw [hsh] at hex
    exact hex
  · have h := (parse_symbol_spec (" 000858.SZ ".data)).2 ("000858".data) ("sz".data) (by decide)
    exact h

/-- Claim C8: for the snapshot cache `get_stock_dividend_info`, when
`force_update` is false and a table is already stored and readable, the
stored table is returned and no remote fetch occurs; requested date
filtering is applied to the in-memory copy only (the returned rows are drawn
from the stored rows, with no filters the stored table comes back verbatim)
and the persisted cache file is left untouched, so a filter request by
itself neither mutates the cache nor triggers a fetch. -/
theorem dividend_snapshot_cache_spec (t : DivTable) (startF endF : Option Nat)
    (fetch : DivFetch) :
    (get_stock_dividend_info (DivFile.stored t) startF endF false fetch).fetchCalled
      = false ∧
    (get_stock_dividend_info (DivFile.stored t) startF endF false fetch).state
      = DivFile.stored t ∧
    (get_stock_dividend_info (DivFile.stored t) startF endF false fetch).result
      = DivResult.ok (divFilter t startF endF) ∧
    divFilter t none none = t ∧
    (divFilter t startF endF).rows ⊆ t.rows := by
  refine ⟨rfl, rfl, rfl, rfl, ?_⟩
  unfold divFilter
  split
  · split
    · intro r hr
      exact List.mem_of_mem_filter hr
    · exact fun r hr => hr
  · exact fun r hr => hr

/-- Witness for C8 at a concrete stored table and filter request. -/
theorem dividend_snapshot_cache_spec_witness :
    (get_stock_dividend_info
        (DivFile.stored ⟨true, [⟨some 5, 0⟩, ⟨none, 1⟩, ⟨some 9, 2⟩]⟩)
        (some 4) (some 6) false (DivFetch.raised ("down".data))).fetchCalled = false ∧
    (get_stock_dividend_info
        (DivFile.stored ⟨true, [⟨some 5, 0⟩, ⟨none, 1⟩, ⟨some 9, 2⟩]⟩)
        (some 4) (some 6) false (DivFetch.raised ("down".data))).state
      = DivFile.stored ⟨true, [⟨some 5, 0⟩, ⟨none, 1⟩, ⟨some 9, 2⟩]⟩ ∧
    (get_stock_dividend_info
        (DivFile.stored ⟨true, [⟨some 5, 0⟩, ⟨none, 1⟩, ⟨some 9, 2⟩]⟩)
        (some 4) (some 6) false (DivFetch.raised ("down".data))).result
      = DivResult.ok (divFilter ⟨true, [⟨some 5, 0⟩, ⟨none, 1⟩, ⟨some 9, 2⟩]⟩
          (some 4) (some 6)) := by
  obtain ⟨h1, h2, h3, -, -⟩ :=
    dividend_snapshot_cache_spec ⟨true, [⟨some 5, 0⟩, ⟨none, 1⟩, ⟨some 9, 2⟩]⟩
      (some 4) (some 6) (DivFetch.raised ("down".data))
  exact ⟨h1, h2, h3⟩

/-- Claim C10: when the remote fetch inside
`get_stock_institute_recommendations` raises an exception whose message
contains "Empty DataFrame" or "No tables found", the error is not
propagated: an empty table is returned and nothing is persisted; every other
fetch exception is re-raised, also with nothing persisted. -/
theorem institute_recommend_error_spec (file : RecFile) (force : Bool) (m : PyStr)
    (hfetch : (get_stock_institute_recommendations file force
        (RecFetch.raised m)).fetchCalled = true) :
    ((pyContains m emptyFrameMsg || pyContains m noTablesMsg) = true →
      (get_stock_institute_recommendations file force (RecFetch.raised m)).result
          = RecResult.ok [] ∧
      (get_stock_institute_recommendations file force (RecFetch.raised m)).state
          = file) ∧
    ((pyContains m emptyFrameMsg || pyContains m noTablesMsg) = false →
      (get_stock_institute_recommendations file force (RecFetch.raised m)).result
          = RecResult.fetchError m ∧
      (get_stock_institute_recommendations file force (RecFetch.raised m)).state
          = file) := by
  cases force with
  | true =>
    constructor <;> intro h <;>
      simp [get_stock_institute_recommendations, h]
  | false =>
    cases file with
    | stored rows => simp [get_stock_institute_recommendations] at hfetch
    | absent =>
      constructor <;> intro h <;>
        simp [get_stock_institute_recommendations, h]
    | unreadable =>
      constructor <;> intro h <;>
        simp [get_stock_institute_recommendations, h]

/-- Witness for C10: a tolerated "Empty DataFrame" message on a cold cache
yields an empty table with the cache untouched. -/
theorem institute_recommend_error_spec_witness :
    (get_stock_institute_recommendations RecFile.absent false
        (RecFetch.raised ("Error: Empty DataFrame seen".data))).fetchCalled = true ∧
    (pyContains ("Error: Empty DataFrame seen".data) emptyFrameMsg ||
      pyContains ("Error: Empty DataFrame seen".data) noTablesMsg) = true ∧
    (get_stock_institute_recommendations RecFile.absent false
        (RecFetch.raised ("Error: Empty DataFrame seen".data))).result
      = RecResult.ok [] ∧
    (get_stock_institute_recommendations RecFile.absent false
        (RecFetch.raised ("Error: Empty DataFrame seen".data))).state
      = RecFile.absent := by
  have h := (institute_recommend_error_spec RecFile.absent false
      ("Error: Empty DataFrame seen".data) rfl).1 (by decide)
  exact ⟨rfl, by decide, h.1, h.2⟩

/-- Claim C5: if the remote fetch invoked by `get_stock_history` raises, the
operation fails by propagating that error (the same message) to the caller,
and the previously persisted table file and metadata file are left exactly
as they were before the call. -/
theorem history_fetch_error_spec (s : CacheState) (rs re : Nat) (m : PyStr)
    (hfetch : (get_stock_history s rs re (Fetch.raised m)).fetchCalled = true) :
    (get_stock_history s rs re (Fetch.raised m)).result = HistResult.fetchError m ∧
    (get_stock_history s rs re (Fetch.raised m)).state = s := by
  cases hfh : fullHit (loadCoverage s) rs re with
  | false => simp [get_stock_history, hfh, fetchAndMerge]
  | true =>
    cases hsf : s.file with
    | table rows => simp [get_stock_history, hfh, hsf] at hfetch
    | absent => simp [get_stock_history, hfh, hsf, fetchAndMerge]
    | emptyFile => simp [get_stock_history, hfh, hsf, fetchAndMerge]
    | unreadable => simp [get_stock_history, hfh, hsf, fetchAndMerge]
    | noDateCol j => simp [get_stock_history, hfh, hsf, fetchAndMerge]

/-- Witness for C5 on a cold cache: the raised message comes back and the
state is unchanged. -/
theorem history_fetch_error_spec_witness :
    (get_stock_history ⟨TableFile.absent, MetaFile.absent⟩ 1 2
        (Fetch.raised ("boom".data))).fetchCalled = true ∧
    (get_stock_history ⟨TableFile.absent, MetaFile.absent⟩ 1 2
        (Fetch.raised ("boom".data))).result = HistResult.fetchError ("boom".data) ∧
    (get_stock_history ⟨TableFile.absent, MetaFile.absent⟩ 1 2
        (Fetch.raised ("boom".data))).state = ⟨TableFile.absent, MetaFile.absent⟩ := by
  have h := history_fetch_error_spec ⟨TableFile.absent, MetaFile.absent⟩ 1 2
    ("boom".data) rfl
  exact ⟨rfl, h.1, h.2⟩

/-- Helper: the outcome of `get_stock_history` on a full hit against a
readable dated table. -/
theorem get_stock_history_full_hit (s : CacheState) (rows : List Row)
    (cs ce rs re : Nat) (f : Fetch)
    (hmeta : s.meta = MetaFile.meta cs ce) (hfile : s.file = TableFile.table rows)
    (hcs : cs ≤ rs) (hce : re ≤ ce) :
    get_stock_history s rs re f =
      ⟨HistResult.ok (sortByDate (sliceRange rows rs re)), s, false⟩ := by
  have hcov : loadCoverage s = (some cs, some ce) := by
    simp [loadCoverage, hfile, hmeta]
  have hfh : fullHit (loadCoverage s) rs re = true := by
    simp [hcov, fullHit, hcs, hce]
  simp [get_stock_history, hfh, hfile]

/-- Claim C1: with stored coverage `coveredStart ≤ requestedStart`,
`coveredEnd ≥ requestedEnd` and a readable persisted table,
`get_stock_history` returns the persisted rows whose date lies in the
requested interval, sorted ascending, without invoking the remote fetch and
without touching the cache; hence a second call with the identical interval
issues zero remote fetches and returns the same rows as the first call. -/
theorem history_full_hit_spec (s : CacheState) (rows : List Row)
    (cs ce rs re : Nat) (f1 f2 : Fetch)
    (hmeta : s.meta = MetaFile.meta cs ce) (hfile : s.file = TableFile.table rows)
    (hcs : cs ≤ rs) (hce : re ≤ ce) :
    (get_stock_history s rs re f1).fetchCalled = false ∧
    (get_stock_history s rs re f1).state = s ∧
    (∃ out, (get_stock_history s rs re f1).result = HistResult.ok out ∧
      List.Sorted dateLe out ∧ out.Perm (sliceRange rows rs re)) ∧
    (get_stock_history (get_stock_history s rs re f1).state rs re f2).fetchCalled
      = false ∧
    (get_stock_history (get_stock_history s rs re f1).state rs re f2).result
      = (get_stock_history s rs re f1).result := by
  have h1 := get_stock_history_full_hit s rows cs ce rs re f1 hmeta hfile hcs hce
  have h2 := get_stock_history_full_hit s rows cs ce rs re f2 hmeta hfile hcs hce
  rw [h1]
  refine ⟨rfl, rfl, ?_, ?_, ?_⟩
  · exact ⟨sortByDate (sliceRange rows rs re), rfl,
      List.sorted_insertionSort dateLe (sliceRange rows rs re),
      List.perm_insertionSort dateLe (sliceRange rows rs re)⟩
  · rw [h2]
  · rw [h2]

/-- Witness for C1 at a concrete covered cache. -/
theorem history_full_hit_spec_witness :
    (0 : Nat) ≤ 1 ∧ (20 : Nat) ≤ 100 ∧
    ((get_stock_history ⟨TableFile.table [⟨5, 0⟩, ⟨15, 1⟩], MetaFile.meta 0 100⟩
        1 20 (Fetch.raised ("x".data))).fetchCalled = false ∧
      (get_stock_history ⟨TableFile.table [⟨5, 0⟩, ⟨15, 1⟩], MetaFile.meta 0 100⟩
        1 20 (Fetch.raised ("x".data))).state
        = ⟨TableFile.table [⟨5, 0⟩, ⟨15, 1⟩], MetaFile.meta 0 100⟩ ∧
      (∃ out, (get_stock_history ⟨TableFile.table [⟨5, 0⟩, ⟨15, 1⟩], MetaFile.meta 0 100⟩
          1 20 (Fetch.raised ("x".data))).result = HistResult.ok out ∧
        List.Sorted dateLe out ∧
        out.Perm (sliceRange [⟨5, 0⟩, ⟨15, 1⟩] 1 20)) ∧
      (get_stock_history
        (get_stock_history ⟨TableFile.table [⟨5, 0⟩, ⟨15, 1⟩], MetaFile.meta 0 100⟩
          1 20 (Fetch.raised ("x".data))).state 1 20 (Fetch.ok [])).fetchCalled = false ∧
      (get_stock_history
        (get_stock_history ⟨TableFile.table [⟨5, 0⟩, ⟨15, 1⟩], MetaFile.meta 0 100⟩
          1 20 (Fetch.raised ("x".data))).state 1 20 (Fetch.ok [])).result
        = (get_stock_history ⟨TableFile.table [⟨5, 0⟩, ⟨15, 1⟩], MetaFile.meta 0 100⟩
          1 20 (Fetch.raised ("x".data))).result) :=
  ⟨by decide, by decide,
    history_full_hit_spec ⟨TableFile.table [⟨5, 0⟩, ⟨15, 1⟩], MetaFile.meta 0 100⟩
      [⟨5, 0⟩, ⟨15, 1⟩] 0 100 1 20 (Fetch.raised ("x".data)) (Fetch.ok [])
      rfl rfl (by decide) (by decide)⟩

/-- Counterexample for C7: `get_stock_history` performs no
`requestedStart ≤ requestedEnd` validation at its entry (source lines
113-131 only normalize the date format).  With requestedStart 50 >
requestedEnd 10 and stored coverage [0, 100], the full-hit test
`0 ≤ 50 ∧ 10 ≤ 100` passes and the call succeeds, returning an empty frame
with no fetch and no mutation — it does not fail with any error, and the
embedded error type `HistResult` faithfully has no invalid-range
constructor because the source raises no such error. -/
theorem history_inverted_range_cex :
    (get_stock_history ⟨TableFile.table [⟨5, 0⟩], MetaFile.meta 0 100⟩ 50 10
        (Fetch.raised ("x".data))).result = HistResult.ok [] ∧
    (get_stock_history ⟨TableFile.table [⟨5, 0⟩], MetaFile.meta 0 100⟩ 50 10
        (Fetch.raised ("x".data))).fetchCalled = false ∧
    (get_stock_history ⟨TableFile.table [⟨5, 0⟩], MetaFile.meta 0 100⟩ 50 10
        (Fetch.raised ("x".data))).state
      = ⟨TableFile.table [⟨5, 0⟩], MetaFile.meta 0 100⟩ := by decide

/-- Claim C7 as amended: the ranged-cache operation performs no range
validation and has no `InvalidRangeError`; a call with
`requestedStart > requestedEnd` does not fail.  In particular, whenever the
stored coverage bounds contain both requested endpoints and the table is
readable, such an inverted call succeeds with an empty row list, performs no
fetch and no cache mutation. -/
theorem history_inverted_range_spec (s : CacheState) (rows : List Row)
    (cs ce rs re : Nat) (f : Fetch)
    (hmeta : s.meta = MetaFile.meta cs ce) (hfile : s.file = TableFile.table rows)
    (hcs : cs ≤ rs) (hce : re ≤ ce) (hinv : re < rs) :
    (get_stock_history s rs re f).result = HistResult.ok [] ∧
    (get_stock_history s rs re f).fetchCalled = false ∧
    (get_stock_history s rs re f).state = s := by
  have h1 := get_stock_history_full_hit s rows cs ce rs re f hmeta hfile hcs hce
  have hnil : sliceRange rows rs re = [] := by
    apply List.filter_eq_nil_iff.mpr
    intro r hr
    simp only [Bool.and_eq_true, decide_eq_true_eq, not_and]
    intro hle
    omega
  rw [h1, hnil]
  exact ⟨rfl, rfl, rfl⟩

/-- Witness for the amended C7 at a concrete covered cache. -/
theorem history_inverted_range_spec_witness :
    (0 : Nat) ≤ 50 ∧ (10 : Nat) ≤ 100 ∧ (10 : Nat) < 50 ∧
    ((get_stock_history ⟨TableFile.table [⟨5, 0⟩, ⟨60, 1⟩], MetaFile.meta 0 100⟩ 50 10
        (Fetch.ok [⟨55, 2⟩])).result = HistResult.ok [] ∧
      (get_stock_history ⟨TableFile.table [⟨5, 0⟩, ⟨60, 1⟩], MetaFile.meta 0 100⟩ 50 10
        (Fetch.ok [⟨55, 2⟩])).fetchCalled = false ∧
      (get_stock_history ⟨TableFile.table [⟨5, 0⟩, ⟨60, 1⟩], MetaFile.meta 0 100⟩ 50 10
        (Fetch.ok [⟨55, 2⟩])).state
        = ⟨TableFile.table [⟨5, 0⟩, ⟨60, 1⟩], MetaFile.meta 0 100⟩) :=
  ⟨by decide, by decide, by decide,
    history_inverted_range_spec ⟨TableFile.table [⟨5, 0⟩, ⟨60, 1⟩], MetaFile.meta 0 100⟩
      [⟨5, 0⟩, ⟨60, 1⟩] 0 100 50 10 (Fetch.ok [⟨55, 2⟩])
      rfl rfl (by decide) (by decide) (by decide)⟩

/-- Helper: deduplication only keeps rows of the original list. -/
theorem mem_dedupKeepLast {r : Row} {l : List Row} : r ∈ dedupKeepLast l → r ∈ l := by
  induction l with
  | nil => intro h; simp [dedupKeepLast] at h
  | cons a t ih =>
    intro h
    by_cases hc : t.any (fun x => x.date == a.date) = true
    · rw [dedupKeepLast, if_pos hc] at h
      exact List.mem_cons_of_mem a (ih h)
    · rw [dedupKeepLast, if_neg hc] at h
      rcases List.mem_cons.mp h with h | h
      · exact h ▸ List.mem_cons_self a t
      · exact List.mem_cons_of_mem a (ih h)

/-- Helper: after keep-last deduplication the dates are pairwise distinct. -/
theorem nodup_dates_dedupKeepLast (l : List Row) :
    ((dedupKeepLast l).map Row.date).Nodup := by
  induction l with
  | nil => simp [dedupKeepLast]
  | cons a t ih =>
    by_cases hc : t.any (fun x => x.date == a.date) = true
    · rw [dedupKeepLast, if_pos hc]
      exact ih
    · rw [dedupKeepLast, if_neg hc]
      rw [List.map_cons, List.nodup_cons]
      refine ⟨?_, ih⟩
      intro hmem
      obtain ⟨x, hx, hxd⟩ := List.mem_map.mp hmem
      have hxt : x ∈ t := mem_dedupKeepLast hx
      rw [List.any_eq_true] at hc
      exact hc ⟨x, hxt, by simp [hxd]⟩

/-- Helper: if some newly fetched row carries date `d`, every surviving row
with date `d` comes from the newly fetched batch (`keep='last'`). -/
theorem dedupKeepLast_conflict (c : List Row) {n : List Row} {d : Nat}
    (hd : ∃ x ∈ n, x.date = d) :
    ∀ r ∈ dedupKeepLast (c ++ n), r.date = d → r ∈ n := by
  induction c with
  | nil =>
    intro r hr _
    exact mem_dedupKeepLast hr
  | cons a c ih =>
    intro r hr hrd
    rw [List.cons_append] at hr
    by_cases hc : (c ++ n).any (fun x => x.date == a.date) = true
    · rw [dedupKeepLast, if_pos hc] at hr
      exact ih r hr hrd
    · rw [dedupKeepLast, if_neg hc] at hr
      rcases List.mem_cons.mp hr with hr | hr
      · exfalso
        obtain ⟨x, hx, hxd⟩ := hd
        have hmem : x ∈ c ++ n := List.mem_append_right c hx
        rw [List.any_eq_true] at hc
        subst hr
        exact hc ⟨x, hmem, by simp [hxd, hrd]⟩
      · exact ih r hr hrd

/-- Claim C2: after the merge step (a cached table merged with newly fetched
rows), the persisted table is exactly `mergeRows cached new`; it is sorted
ascending by date, contains at most one row per distinct date, and for every
date present among the newly fetched rows the surviving row is a newly
fetched one (on a cached/new conflict the new row wins). -/
theorem history_merge_spec (s : CacheState) (c n : List Row) (rs re : Nat)
    (hfile : s.file = TableFile.table c)
    (hmiss : fullHit (loadCoverage s) rs re = false) :
    (get_stock_history s rs re (Fetch.ok n)).state.file
      = TableFile.table (mergeRows c n) ∧
    List.Sorted dateLe (mergeRows c n) ∧
    ((mergeRows c n).map Row.date).Nodup ∧
    (∀ d, (∃ x ∈ n, x.date = d) → ∀ r ∈ mergeRows c n, r.date = d → r ∈ n) := by
  refine ⟨?_, ?_, ?_, ?_⟩
  · simp [get_stock_history, hmiss, fetchAndMerge, loadCached, hfile]
  · exact List.sorted_insertionSort dateLe (dedupKeepLast (c ++ n))
  · have hperm : (mergeRows c n).Perm (dedupKeepLast (c ++ n)) :=
      List.perm_insertionSort dateLe (dedupKeepLast (c ++ n))
    exact ((hperm.map Row.date).nodup_iff).mpr (nodup_dates_dedupKeepLast (c ++ n))
  · intro d hd r hr hrd
    have hperm : (mergeRows c n).Perm (dedupKeepLast (c ++ n)) :=
      List.perm_insertionSort dateLe (dedupKeepLast (c ++ n))
    exact dedupKeepLast_conflict c hd r (hperm.mem_iff.mp hr) hrd

/-- Witness for C2: the fetched row for date 2 replaces the cached one and
the merged table is the deduplicated ascending table. -/
theorem history_merge_spec_witness :
    (⟨TableFile.table [⟨2, 11⟩, ⟨1, 10⟩], MetaFile.absent⟩ : CacheState).file
      = TableFile.table [⟨2, 11⟩, ⟨1, 10⟩] ∧
    fullHit (loadCoverage ⟨TableFile.table [⟨2, 11⟩, ⟨1, 10⟩], MetaFile.absent⟩) 1 3
      = false ∧
    ((get_stock_history ⟨TableFile.table [⟨2, 11⟩, ⟨1, 10⟩], MetaFile.absent⟩ 1 3
        (Fetch.ok [⟨2, 99⟩, ⟨3, 12⟩])).state.file
      = TableFile.table (mergeRows [⟨2, 11⟩, ⟨1, 10⟩] [⟨2, 99⟩, ⟨3, 12⟩]) ∧
      List.Sorted dateLe (mergeRows [⟨2, 11⟩, ⟨1, 10⟩] [⟨2, 99⟩, ⟨3, 12⟩]) ∧
      ((mergeRows [⟨2, 11⟩, ⟨1, 10⟩] [⟨2, 99⟩, ⟨3, 12⟩]).map Row.date).Nodup ∧
      (∀ d, (∃ x ∈ ([⟨2, 99⟩, ⟨3, 12⟩] : List Row), x.date = d) →
        ∀ r ∈ mergeRows [⟨2, 11⟩, ⟨1, 10⟩] [⟨2, 99⟩, ⟨3, 12⟩], r.date = d →
          r ∈ ([⟨2, 99⟩, ⟨3, 12⟩] : List Row))) :=
  ⟨rfl, rfl,
    history_merge_spec ⟨TableFile.table [⟨2, 11⟩, ⟨1, 10⟩], MetaFile.absent⟩
      [⟨2, 11⟩, ⟨1, 10⟩] [⟨2, 99⟩, ⟨3, 12⟩] 1 3 rfl rfl⟩

/-- Helper: in a well-formed state, full metadata is what coverage loading
returns. -/
theorem loadCoverage_of_wf {s : CacheState} {cs ce : Nat} (hwf : wfState s)
    (hm : s.meta = MetaFile.meta cs ce) :
    loadCoverage s = (some cs, some ce) := by
  obtain ⟨h1, h2⟩ := hwf cs ce hm
  unfold loadCoverage
  cases hf : s.file with
  | absent => exact absurd hf h1
  | emptyFile => exact absurd hf h2
  | unreadable => rw [hm]
  | noDateCol j => rw [hm]
  | table rows => rw [hm]

/-- Helper: every single call preserves well-formedness of the cache
state. -/
theorem wfState_step (s : CacheState) (hwf : wfState s) (a b : Nat) (f : Fetch) :
    wfState (get_stock_history s a b f).state := by
  have hfam : ∀ cov, wfState (fetchAndMerge s cov a b f).state := by
    intro cov
    cases f with
    | raised m => exact hwf
    | ok n =>
      intro cs ce _
      exact ⟨fun h => TableFile.noConfusion h, fun h => TableFile.noConfusion h⟩
  cases hfh : fullHit (loadCoverage s) a b with
  | false => simpa [get_stock_history, hfh] using hfam (loadCoverage s)
  | true =>
    cases hsf : s.file with
    | table rows => simpa [get_stock_history, hfh, hsf] using hwf
    | absent => simpa [get_stock_history, hfh, hsf] using hfam (loadCoverage s)
    | emptyFile => simpa [get_stock_history, hfh, hsf] using hfam (loadCoverage s)
    | unreadable => simpa [get_stock_history, hfh, hsf] using hfam (loadCoverage s)
    | noDateCol j => simpa [get_stock_history, hfh, hsf] using hfam (loadCoverage s)

/-- Helper: a single call from a well-formed state with full metadata
`[cs, ce]` ends with full metadata whose start has not increased and whose
end has not decreased. -/
theorem meta_step (s : CacheState) {cs ce : Nat} (hwf : wfState s)
    (hm : s.meta = MetaFile.meta cs ce) (a b : Nat) (f : Fetch) :
    ∃ cs' ce', (get_stock_history s a b f).state.meta = MetaFile.meta cs' ce' ∧
      cs' ≤ cs ∧ ce ≤ ce' := by
  have hcov := loadCoverage_of_wf hwf hm
  have hfam : ∃ cs' ce',
      (fetchAndMerge s (loadCoverage s) a b f).state.meta = MetaFile.meta cs' ce' ∧
      cs' ≤ cs ∧ ce ≤ ce' := by
    cases f with
    | raised m => exact ⟨cs, ce, hm, le_refl cs, le_refl ce⟩
    | ok n =>
      refine ⟨min cs a, max ce b, ?_, min_le_left cs a, le_max_left ce b⟩
      simp [fetchAndMerge, hcov]
  cases hfh : fullHit (loadCoverage s) a b with
  | false => simpa [get_stock_history, hfh] using hfam
  | true =>
    cases hsf : s.file with
    | table rows =>
      refine ⟨cs, ce, ?_, le_refl cs, le_refl ce⟩
      simpa [get_stock_history, hfh, hsf] using hm
    | absent => simpa [get_stock_history, hfh, hsf] using hfam
    | emptyFile => simpa [get_stock_history, hfh, hsf] using hfam
    | unreadable => simpa [get_stock_history, hfh, hsf] using hfam
    | noDateCol j => simpa [get_stock_history, hfh, hsf] using hfam

/-- Helper: running a concatenated call sequence is running the pieces in
order. -/
theorem runCalls_append (s : CacheState) (pre post : List Call) :
    runCalls s (pre ++ post) = runCalls (runCalls s pre) post := by
  induction pre generalizing s with
  | nil => rfl
  | cons c rest ih =>
    rw [List.cons_append, runCalls, runCalls]
    exact ih _

/-- Helper: well-formedness is preserved by whole call sequences. -/
theorem wfState_runCalls (s : CacheState) (hwf : wfState s) (calls : List Call) :
    wfState (runCalls s calls) := by
  induction calls generalizing s with
  | nil => exact hwf
  | cons c rest ih =>
    rw [runCalls]
    exact ih _ (wfState_step s hwf c.reqStart c.reqEnd c.fetch)

/-- Helper: along any call sequence from a well-formed state with full
metadata, the metadata stays full, its start never increases and its end
never decreases. -/
theorem meta_runCalls (calls : List Call) : ∀ (s : CacheState) {cs ce : Nat},
    wfState s → s.meta = MetaFile.meta cs ce →
    ∃ cs' ce', (runCalls s calls).meta = MetaFile.meta cs' ce' ∧
      cs' ≤ cs ∧ ce ≤ ce' := by
  induction calls with
  | nil =>
    intro s cs ce _ hm
    exact ⟨cs, ce, hm, le_refl cs, le_refl ce⟩
  | cons c rest ih =>
    intro s cs ce hwf hm
    obtain ⟨cs1, ce1, hm1, h1, h2⟩ := meta_step s hwf hm c.reqStart c.reqEnd c.fetch
    have hwf1 := wfState_step s hwf c.reqStart c.reqEnd c.fetch
    obtain ⟨cs2, ce2, hm2, h3, h4⟩ := ih _ hwf1 hm1
    exact ⟨cs2, ce2, hm2, le_trans h3 h1, le_trans h2 h4⟩

/-- Claim C3: across any sequence of `get_stock_history` calls from a
well-formed cache state (full metadata is accompanied by an existing
nonempty table file, as every state the code persists is), the persisted
`coveredStart` never increases and the persisted `coveredEnd` never
decreases relative to any previously persisted value: coverage only grows.
The well-formedness hypothesis is needed because an externally truncated or
deleted table file makes the code skip the metadata read and rewrite the
bounds from the request alone. -/
theorem coverage_monotone_spec (s : CacheState) (hwf : wfState s)
    (pre post : List Call) (cs ce cs' ce' : Nat)
    (h1 : (runCalls s pre).meta = MetaFile.meta cs ce)
    (h2 : (runCalls s (pre ++ post)).meta = MetaFile.meta cs' ce') :
    cs' ≤ cs ∧ ce ≤ ce' := by
  have hwf1 := wfState_runCalls s hwf pre
  rw [runCalls_append] at h2
  obtain ⟨cs2, ce2, hm2, h3, h4⟩ := meta_runCalls post (runCalls s pre) hwf1 h1
  rw [h2] at hm2
  injection hm2 with e1 e2
  subst e1
  subst e2
  exact ⟨h3, h4⟩

/-- Witness for C3: one successful widening call from a covered state. -/
theorem coverage_monotone_spec_witness :
    (runCalls ⟨TableFile.table [⟨7, 0⟩], MetaFile.meta 5 10⟩ []).meta
      = MetaFile.meta 5 10 ∧
    (runCalls ⟨TableFile.table [⟨7, 0⟩], MetaFile.meta 5 10⟩
        ([] ++ [⟨3, 12, Fetch.ok [⟨4, 1⟩]⟩])).meta = MetaFile.meta 3 12 ∧
    (3 ≤ 5 ∧ 10 ≤ 12) := by
  refine ⟨rfl, by decide, ?_⟩
  exact coverage_monotone_spec ⟨TableFile.table [⟨7, 0⟩], MetaFile.meta 5 10⟩
    (fun cs ce _ => ⟨fun h => TableFile.noConfusion h, fun h => TableFile.noConfusion h⟩)
    [] [⟨3, 12, Fetch.ok [⟨4, 1⟩]⟩] 5 10 3 12 rfl (by decide)

/-- Helper: a range filter on a date-sorted list is date-sorted. -/
theorem sliceRange_sorted {l : List Row} (h : List.Sorted dateLe l) (a b : Nat) :
    List.Sorted dateLe (sliceRange l a b) :=
  List.Pairwise.filter _ h

/-- Helper: when no usable cached frame exists, the call is exactly the
fetch-and-merge path, whatever the coverage metadata says. -/
theorem get_stock_history_no_table (s : CacheState) (rs re : Nat) (f : Fetch)
    (hnt : loadCached s.file = none) :
    get_stock_history s rs re f = fetchAndMerge s (loadCoverage s) rs re f := by
  cases hfh : fullHit (loadCoverage s) rs re with
  | false => simp [get_stock_history, hfh]
  | true =>
    cases hsf : s.file with
    | table rows => rw [hsf] at hnt; simp [loadCached] at hnt
    | absent => simp [get_stock_history, hfh, hsf]
    | emptyFile => simp [get_stock_history, hfh, hsf]
    | unreadable => simp [get_stock_history, hfh, hsf]
    | noDateCol j => simp [get_stock_history, hfh, hsf]

/-- Helper: slice shape of any successful fetch-and-merge outcome. -/
theorem fetchAndMerge_slice (s : CacheState) (cov : Option Nat × Option Nat)
    (rs re : Nat) (f : Fetch) (out T : List Row)
    (hok : (fetchAndMerge s cov rs re f).result = HistResult.ok out)
    (hT : (fetchAndMerge s cov rs re f).state.file = TableFile.table T) :
    out.Perm (sliceRange T rs re) ∧
    (∀ c, s.file = TableFile.table c → List.Sorted dateLe out) ∧
    (loadCached s.file = none → ∃ n, f = Fetch.ok n ∧ out = sliceRange n rs re) := by
  cases f with
  | raised m => simp [fetchAndMerge] at hok
  | ok n =>
    cases hc : loadCached s.file with
    | some c =>
      have hok2 : sliceRange (mergeRows c n) rs re = out := by
        simpa [fetchAndMerge, hc] using hok
      have hT2 : mergeRows c n = T := by
        simpa [fetchAndMerge, hc] using hT
      refine ⟨?_, ?_, ?_⟩
      · rw [← hok2, ← hT2]
      · intro c' hc'
        have hcc : loadCached s.file = some c' := by rw [hc']; rfl
        have hcc2 : some c = some c' := hc.symm.trans hcc
        injection hcc2 with hcc2
        subst hcc2
        rw [← hok2]
        exact sliceRange_sorted (List.sorted_insertionSort dateLe _) rs re
      · intro hnone
        exact Option.noConfusion hnone
    | none =>
      have hok2 : sliceRange n rs re = out := by
        simpa [fetchAndMerge, hc] using hok
      have hT2 : n = T := by
        simpa [fetchAndMerge, hc] using hT
      refine ⟨?_, ?_, ?_⟩
      · rw [← hok2, ← hT2]
      · intro c' hc'
        have hcc : loadCached s.file = some c' := by rw [hc']; rfl
        exact Option.noConfusion (hc.symm.trans hcc)
      · intro _
        exact ⟨n, rfl, hok2.symm⟩

/-- Counterexample for C4: on a fresh miss the code returns
`final_df.loc[mask]` without sorting (source lines 238-239), so when the
remote source returns rows out of order the returned slice is not sorted
ascending, contradicting the unconditional sortedness in the claim. -/
theorem history_slice_cex :
    (get_stock_history ⟨TableFile.absent, MetaFile.absent⟩ 1 2
        (Fetch.ok [⟨2, 0⟩, ⟨1, 0⟩])).result = HistResult.ok [⟨2, 0⟩, ⟨1, 0⟩] ∧
    ¬ List.Sorted dateLe [(⟨2, 0⟩ : Row), ⟨1, 0⟩] := by
  constructor
  · rfl
  · decide

/-- Claim C4 as amended: for every successful call the returned rows are
exactly the rows of the final persisted table whose date lies in the
requested interval (a permutation of the range filter of that table); they
are additionally sorted ascending whenever a usable cached table existed
(full hit or merge), while on a fresh miss (no usable cached table) they are
the in-range fetched rows in the order the fetch returned them. -/
theorem history_slice_spec (s : CacheState) (rs re : Nat) (f : Fetch)
    (out T : List Row)
    (hok : (get_stock_history s rs re f).result = HistResult.ok out)
    (hT : (get_stock_history s rs re f).state.file = TableFile.table T) :
    out.Perm (sliceRange T rs re) ∧
    (∀ c, s.file = TableFile.table c → List.Sorted dateLe out) ∧
    (loadCached s.file = none → ∃ n, f = Fetch.ok n ∧ out = sliceRange n rs re) := by
  cases hfh : fullHit (loadCoverage s) rs re with
  | false =>
    have hok2 : (fetchAndMerge s (loadCoverage s) rs re f).result = HistResult.ok out := by
      simpa [get_stock_history, hfh] using hok
    have hT2 : (fetchAndMerge s (loadCoverage s) rs re f).state.file
        = TableFile.table T := by
      simpa [get_stock_history, hfh] using hT
    exact fetchAndMerge_slice s (loadCoverage s) rs re f out T hok2 hT2
  | true =>
    cases hsf : s.file with
    | table rows =>
      have hok2 : sortByDate (sliceRange rows rs re) = out := by
        simpa [get_stock_history, hfh, hsf] using hok
      have hT2 : rows = T := by
        simpa [get_stock_history, hfh, hsf] using hT
      refine ⟨?_, ?_, ?_⟩
      · rw [← hok2, ← hT2]
        exact List.perm_insertionSort dateLe _
      · intro c hc
        rw [← hok2]
        exact List.sorted_insertionSort dateLe _
      · intro hnone
        simp [loadCached] at hnone
    | absent =>
      have hnone : loadCached s.file = none := by rw [hsf]; rfl
      have h := get_stock_history_no_table s rs re f hnone
      rw [h] at hok hT
      have hall := fetchAndMerge_slice s (loadCoverage s) rs re f out T hok hT
      refine ⟨hall.1, ?_, fun _ => hall.2.2 hnone⟩
      intro c hc
      exact TableFile.noConfusion hc
    | emptyFile =>
      have hnone : loadCached s.file = none := by rw [hsf]; rfl
      have h := get_stock_history_no_table s rs re f hnone
      rw [h] at hok hT
      have hall := fetchAndMerge_slice s (loadCoverage s) rs re f out T hok hT
      refine ⟨hall.1, ?_, fun _ => hall.2.2 hnone⟩
      intro c hc
      exact TableFile.noConfusion hc
    | unreadable =>
      have hnone : loadCached s.file = none := by rw [hsf]; rfl
      have h := get_stock_history_no_table s rs re f hnone
      rw [h] at hok hT
      have hall := fetchAndMerge_slice s (loadCoverage s) rs re f out T hok hT
      refine ⟨hall.1, ?_, fun _ => hall.2.2 hnone⟩
      intro c hc
      exact TableFile.noConfusion hc
    | noDateCol j =>
      have hnone : loadCached s.file = none := by rw [hsf]; rfl
      have h := get_stock_history_no_table s rs re f hnone
      rw [h] at hok hT
      have hall := fetchAndMerge_slice s (loadCoverage s) rs re f out T hok hT
      refine ⟨hall.1, ?_, fun _ => hall.2.2 hnone⟩
      intro c hc
      exact TableFile.noConfusion hc

/-- Witness for the amended C4: a merge call whose returned slice is the
range filter of the merged persisted table. -/
theorem history_slice_spec_witness :
    (get_stock_history ⟨TableFile.table [⟨2, 11⟩, ⟨1, 10⟩], MetaFile.absent⟩ 1 3
        (Fetch.ok [⟨2, 99⟩, ⟨3, 12⟩])).result
      = HistResult.ok [⟨1, 10⟩, ⟨2, 99⟩, ⟨3, 12⟩] ∧
    (get_stock_history ⟨TableFile.table [⟨2, 11⟩, ⟨1, 10⟩], MetaFile.absent⟩ 1 3
        (Fetch.ok [⟨2, 99⟩, ⟨3, 12⟩])).state.file
      = TableFile.table [⟨1, 10⟩, ⟨2, 99⟩, ⟨3, 12⟩] ∧
    List.Perm [(⟨1, 10⟩ : Row), ⟨2, 99⟩, ⟨3, 12⟩]
      (sliceRange [⟨1, 10⟩, ⟨2, 99⟩, ⟨3, 12⟩] 1 3) ∧
    List.Sorted dateLe [(⟨1, 10⟩ : Row), ⟨2, 99⟩, ⟨3, 12⟩] := by
  have h := history_slice_spec ⟨TableFile.table [⟨2, 11⟩, ⟨1, 10⟩], MetaFile.absent⟩
    1 3 (Fetch.ok [⟨2, 99⟩, ⟨3, 12⟩]) [⟨1, 10⟩, ⟨2, 99⟩, ⟨3, 12⟩]
    [⟨1, 10⟩, ⟨2, 99⟩, ⟨3, 12⟩] rfl rfl
  exact ⟨rfl, rfl, h.1, h.2.1 [⟨2, 11⟩, ⟨1, 10⟩] rfl⟩

/-- Counterexample for C6: with a nonempty-but-unparsable table file and
readable metadata covering [0, 100], a call for [10, 20] does not write
fresh metadata: the old bounds are unioned in (the metadata read at source
lines 139-150 only requires the table file to be nonempty, and the update at
lines 221-227 takes min/max with whatever was read), so the call is not
identical to a first-ever call, which would record exactly [10, 20]. -/
theorem history_corrupt_cache_cex :
    (get_stock_history ⟨TableFile.unreadable, MetaFile.meta 0 100⟩ 10 20
        (Fetch.ok [⟨15, 1⟩])).state.meta = MetaFile.meta 0 100 ∧
    (get_stock_history ⟨TableFile.absent, MetaFile.absent⟩ 10 20
        (Fetch.ok [⟨15, 1⟩])).state.meta = MetaFile.meta 10 20 ∧
    MetaFile.meta 0 100 ≠ MetaFile.meta 10 20 := by decide

/-- Claim C6 as amended: if the persisted table file is empty or unparsable
or lacks the primary date column, `get_stock_history` does not fail: it
performs a full remote fetch of the requested interval and persists the
fetched table without merging the corrupt data.  When the table file is
empty the call behaves identically to a first-ever call (fresh metadata,
exactly the requested interval); when the file is nonempty but unparsable or
missing the date column, any readable old metadata bounds are still unioned
into the new metadata, so the metadata is not fresh. -/
theorem history_corrupt_cache_spec (s : CacheState) (rs re : Nat) (n : List Row)
    (hcorrupt : s.file = TableFile.emptyFile ∨ s.file = TableFile.unreadable ∨
      ∃ j, s.file = TableFile.noDateCol j) :
    (get_stock_history s rs re (Fetch.ok n)).fetchCalled = true ∧
    (get_stock_history s rs re (Fetch.ok n)).result
      = HistResult.ok (sliceRange n rs re) ∧
    (get_stock_history s rs re (Fetch.ok n)).state.file = TableFile.table n ∧
    (get_stock_history s rs re (Fetch.ok n)).state.meta = MetaFile.meta
      (match (loadCoverage s).1 with | some cs => min cs rs | none => rs)
      (match (loadCoverage s).2 with | some ce => max ce re | none => re) ∧
    (s.file = TableFile.emptyFile →
      get_stock_history s rs re (Fetch.ok n)
        = get_stock_history ⟨TableFile.absent, MetaFile.absent⟩ rs re (Fetch.ok n)) := by
  have hnone : loadCached s.file = none := by
    rcases hcorrupt with h | h | ⟨j, h⟩ <;> rw [h] <;> rfl
  have hred := get_stock_history_no_table s rs re (Fetch.ok n) hnone
  rw [hred]
  refine ⟨rfl, ?_, ?_, ?_, ?_⟩
  · simp [fetchAndMerge, hnone]
  · simp [fetchAndMerge, hnone]
  · simp [fetchAndMerge]
  · intro hempty
    have hcov : loadCoverage s = (none, none) := by
      simp [loadCoverage, hempty]
    rw [hcov]
    simp [get_stock_history, fullHit, loadCoverage, fetchAndMerge, loadCached, hempty]

/-- Witness for the amended C6: an empty table file beside stale metadata is
ignored entirely and the call matches a first-ever call. -/
theorem history_corrupt_cache_spec_witness :
    ((⟨TableFile.emptyFile, MetaFile.meta 0 100⟩ : CacheState).file
        = TableFile.emptyFile ∨
      (⟨TableFile.emptyFile, MetaFile.meta 0 100⟩ : CacheState).file
        = TableFile.unreadable ∨
      ∃ j, (⟨TableFile.emptyFile, MetaFile.meta 0 100⟩ : CacheState).file
        = TableFile.noDateCol j) ∧
    (get_stock_history ⟨TableFile.emptyFile, MetaFile.meta 0 100⟩ 10 20
        (Fetch.ok [⟨15, 1⟩])).fetchCalled = true ∧
    (get_stock_history ⟨TableFile.emptyFile, MetaFile.meta 0 100⟩ 10 20
        (Fetch.ok [⟨15, 1⟩])).result
      = HistResult.ok (sliceRange [⟨15, 1⟩] 10 20) ∧
    (get_stock_history ⟨TableFile.emptyFile, MetaFile.meta 0 100⟩ 10 20
        (Fetch.ok [⟨15, 1⟩])).state.file = TableFile.table [⟨15, 1⟩] ∧
    (get_stock_history ⟨TableFile.emptyFile, MetaFile.meta 0 100⟩ 10 20
        (Fetch.ok [⟨15, 1⟩])).state.meta = MetaFile.meta 10 20 ∧
    get_stock_history ⟨TableFile.emptyFile, MetaFile.meta 0 100⟩ 10 20
        (Fetch.ok [⟨15, 1⟩])
      = get_stock_history ⟨TableFile.absent, MetaFile.absent⟩ 10 20
          (Fetch.ok [⟨15, 1⟩]) := by
  have h := history_corrupt_cache_spec ⟨TableFile.emptyFile, MetaFile.meta 0 100⟩
    10 20 [⟨15, 1⟩] (Or.inl rfl)
  exact ⟨Or.inl rfl, h.1, h.2.1, h.2.2.1, h.2.2.2.1, h.2.2.2.2 rfl⟩

end StockProvider
